import Mathlib

/-!
Shallow embedding of the `command-processor` Rust crate (`src/lib.rs`).

The crate defines a fixed-capacity command registry:
* `CommandItem` holds a command name, a callback and an optional help string;
* `CommandProcessor<NUM_COMMANDS, HELP_STR_SIZE>` owns a
  `heapless::Vec<CommandItem, NUM_COMMANDS>` of entries;
* `add_command` scans for a duplicate name, then pushes (failing when the
  vector is at capacity);
* `remove_command` finds the first entry with the given name and removes it
  with `Vec::swap_remove`;
* `process_command` intercepts the name `"help"` before lookup (requiring a
  writer), otherwise finds the entry by name and invokes its callback with
  the optional writer;
* `help_printer` writes each present help string followed by a newline to
  the writer, aborting with `WriteError` on the first failed write.

Writers (`&mut dyn core::fmt::Write`) are modelled by a state type `σ`
together with a `writeStr` function that consumes a state and a string and
returns the new state and a success flag.  Callbacks
(`fn(Option<&mut dyn Write>) -> Result<ReturnCode, CommandProcessorError>`)
are modelled as functions from the optional writer state to the new optional
writer state paired with the returned result.  The `heapless::Vec` is
modelled as a list together with the structural bound `length ≤ NUM_COMMANDS`
that the Rust type maintains.
-/

/-- `enum ReturnCode { Success, Failure }` from the source. -/
inductive ReturnCode where
  | Success
  | Failure
deriving DecidableEq, Repr

/-- `enum CommandProcessorError` from the source. -/
inductive CommandProcessorError where
  | CommandAlreadyExists
  | CommandNotFound
  | CommandListFull
  | WriteError
  | NoWriter
deriving DecidableEq, Repr

/-- Model of a `core::fmt::Write` sink: a state type `σ` with a write
operation returning the updated state and whether the write succeeded
(`Ok(())` vs `Err(fmt::Error)`). -/
structure WriterModel (σ : Type) where
  writeStr : σ → String → σ × Bool

/-- `type CommandCallbackReturn = Result<ReturnCode, CommandProcessorError>`. -/
def CommandCallbackReturn := Except CommandProcessorError ReturnCode

/-- `type CommandCallback = fn(Option<&mut dyn Write>) -> CommandCallbackReturn`:
the callback receives the optional writer (state) and returns the writer
state after any writes it performed, together with its result. -/
def CommandCallback (σ : Type) := Option σ → Option σ × CommandCallbackReturn

/-- `struct CommandItem { command: String<32>, callback: CommandCallback,
help: Option<String<HELP_STR_SIZE>> }`.  The length bounds of the heapless
strings are not relevant to any claim and are not modelled. -/
structure CommandItem (σ : Type) where
  command : String
  callback : CommandCallback σ
  help : Option String

/-- `struct CommandProcessor { commands: Vec<CommandItem, NUM_COMMANDS> }`.
A `heapless::Vec` structurally never holds more than its capacity, so the
bound is carried as a field. -/
structure CommandProcessor (σ : Type) (NUM_COMMANDS : Nat) where
  commands : List (CommandItem σ)
  capacity_inv : commands.length ≤ NUM_COMMANDS

/-- `CommandProcessor::new()`: the empty registry. -/
def CommandProcessor.new (σ : Type) (NUM_COMMANDS : Nat) :
    CommandProcessor σ NUM_COMMANDS :=
  ⟨[], by simp⟩

/-- `heapless::Vec::swap_remove(i)` on the underlying list: overwrite slot
`i` with the last element, then pop the last element.  (The source only
calls it with `i` in bounds, where `getLast?` is `some`.) -/
def swap_remove {α : Type} (l : List α) (i : Nat) : List α :=
  match l.getLast? with
  | some last => (l.set i last).dropLast
  | none => l

/-- `CommandProcessor::add_command`: scan for a duplicate name (failing with
`CommandAlreadyExists`), then `push` (failing with `CommandListFull` when the
vector is full, i.e. when `len = NUM_COMMANDS`). -/
def add_command {σ : Type} {N : Nat} (p : CommandProcessor σ N)
    (command : String) (callback : CommandCallback σ) (help : Option String) :
    CommandProcessor σ N × Except CommandProcessorError Unit :=
  if p.commands.any (fun cmd => cmd.command == command) then
    (p, .error .CommandAlreadyExists)
  else if h : p.commands.length < N then
    (⟨p.commands ++ [⟨command, callback, help⟩], by
        simpa using h⟩, .ok ())
  else
    (p, .error .CommandListFull)

/-- `CommandProcessor::remove_command`: find the first entry whose name
equals `command` and `swap_remove` it; otherwise fail with
`CommandNotFound`. -/
def remove_command {σ : Type} {N : Nat} (p : CommandProcessor σ N)
    (command : String) :
    CommandProcessor σ N × Except CommandProcessorError Unit :=
  match p.commands.findIdx? (fun cmd => cmd.command == command) with
  | some i =>
    (⟨swap_remove p.commands i, by
        have hc := p.capacity_inv
        unfold swap_remove
        cases p.commands.getLast? <;> simp <;> omega⟩, .ok ())
  | none => (p, .error .CommandNotFound)

/-- `CommandProcessor::help_printer`: iterate the entries in storage order;
for each entry with a help string, `writeln!(writer, "{}", help)`, i.e.
write the help string and then a newline, aborting with `WriteError` as soon
as a write fails.  Returns the final writer state and the result. -/
def help_printer {σ : Type} (w : WriterModel σ) :
    List (CommandItem σ) → σ → σ × Except CommandProcessorError ReturnCode
  | [], s => (s, .ok .Success)
  | cmd :: rest, s =>
    match cmd.help with
    | none => help_printer w rest s
    | some h =>
      match w.writeStr s h with
      | (s1, true) =>
        match w.writeStr s1 "\n" with
        | (s2, true) => help_printer w rest s2
        | (s2, false) => (s2, .error .WriteError)
      | (s1, false) => (s1, .error .WriteError)

/-- `CommandProcessor::process_command`: if the name is `"help"`, require a
writer (else `NoWriter`) and run `help_printer`; otherwise find the entry by
name and invoke its callback with the optional writer, or fail with
`CommandNotFound`.  The Rust method takes `&mut self` but never mutates the
registry; the returned processor is the method's effect on `self`. -/
def process_command {σ : Type} {N : Nat} (w : WriterModel σ)
    (p : CommandProcessor σ N) (command : String) (writer : Option σ) :
    CommandProcessor σ N × Option σ × Except CommandProcessorError ReturnCode :=
  if command == "help" then
    match writer with
    | some s =>
      let r := help_printer w p.commands s
      (p, some r.1, r.2)
    | none => (p, none, .error .NoWriter)
  else
    match p.commands.find? (fun cmd => cmd.command == command) with
    | some cmd =>
      let r := cmd.callback writer
      (p, r.1, r.2)
    | none => (p, writer, .error .CommandNotFound)

/-- One registry operation, for stating reachability invariants: the
operations of the public interface (`add_command`, `remove_command`,
`process_command`). -/
inductive Op (σ : Type) where
  | add (command : String) (callback : CommandCallback σ) (help : Option String)
  | remove (command : String)
  | dispatch (w : WriterModel σ) (command : String) (writer : Option σ)

/-- The registry state after applying one operation. -/
def applyOp {σ : Type} {N : Nat} (p : CommandProcessor σ N) :
    Op σ → CommandProcessor σ N
  | .add c cb h => (add_command p c cb h).1
  | .remove c => (remove_command p c).1
  | .dispatch w c wr => (process_command w p c wr).1

/-- The registry state after a sequence of operations. -/
def runOps {σ : Type} {N : Nat} (p : CommandProcessor σ N) (ops : List (Op σ)) :
    CommandProcessor σ N :=
  ops.foldl applyOp p

/-- The sequence of strings `help_printer` asks the writer to write: for
each entry with a help string, in storage order, the help string and then a
newline; entries without help text contribute nothing. -/
def helpWriteSeq {σ : Type} : List (CommandItem σ) → List String
  | [] => []
  | cmd :: rest =>
    match cmd.help with
    | some h => h :: "\n" :: helpWriteSeq rest
    | none => helpWriteSeq rest

/-- Run a sequence of writes on the writer, stopping at the first failed
write; returns the final writer state and whether every write succeeded. -/
def runWrites {σ : Type} (w : WriterModel σ) : σ → List String → σ × Bool
  | s, [] => (s, true)
  | s, t :: ts =>
    match w.writeStr s t with
    | (s1, true) => runWrites w s1 ts
    | (s1, false) => (s1, false)

/-- The writer state after writing a sequence of strings in order
(ignoring failures). -/
def writeAll {σ : Type} (w : WriterModel σ) (s : σ) (ts : List String) : σ :=
  ts.foldl (fun s t => (w.writeStr s t).1) s

/-- The registry invariant: at most `NUM_COMMANDS` entries and no two
entries share the same name. -/
def RegInv {σ : Type} {N : Nat} (p : CommandProcessor σ N) : Prop :=
  p.commands.length ≤ N ∧ (p.commands.map (fun c => c.command)).Nodup

/-- A concrete callback (like `printer_demo` in the crate's tests): ignores
the writer and returns `Ok(ReturnCode::Success)`. -/
def demoCallback : CommandCallback String :=
  fun wo => (wo, Except.ok ReturnCode.Success)

/-- A concrete callback returning `Ok(ReturnCode::Failure)`. -/
def demoCallbackFailure : CommandCallback String :=
  fun wo => (wo, Except.ok ReturnCode.Failure)

/-- A concrete writer whose state is the string written so far and whose
writes always succeed (like `std::string::String` in the crate's tests). -/
def appendWriter : WriterModel String :=
  ⟨fun s t => (s ++ t, true)⟩

/-- A concrete bounded writer (like `heapless::String<CAP>`): a write
succeeds all-or-nothing if the result fits in `cap` bytes. -/
def boundedWriter (cap : Nat) : WriterModel String :=
  ⟨fun s t => if s.length + t.length ≤ cap then (s ++ t, true) else (s, false)⟩

/-- A concrete registry with two commands, `"a"` (help `"aa"`) and `"b"`
(help `"bb"`). -/
def procTwo : CommandProcessor String 8 :=
  ⟨[⟨"a", demoCallback, some "aa"⟩, ⟨"b", demoCallbackFailure, some "bb"⟩],
   by simp⟩

/-- A concrete registry of capacity 1 that is full. -/
def procFull : CommandProcessor String 1 :=
  ⟨[⟨"a", demoCallback, none⟩], by simp⟩

/-! ## Helper lemmas -/

/-- `swap_remove` at an in-bounds index is a permutation of erasing that
index. -/
theorem swap_remove_perm {α : Type} (l : List α) (i : Nat) (h : i < l.length) :
    List.Perm (swap_remove l i) (l.eraseIdx i) := by
  induction l generalizing i with
  | nil => simp at h
  | cons a t ih =>
    cases t with
    | nil =>
      have hi : i = 0 := by simp at h; omega
      subst hi
      simp [swap_remove]
    | cons b t2 =>
      have hne : (b :: t2 : List α) ≠ [] := by simp
      have hlast : (a :: b :: t2 : List α).getLast? = some ((b :: t2).getLast hne) := by
        rw [List.getLast?_cons_cons, List.getLast?_eq_getLast]
      cases i with
      | zero =>
        simp only [swap_remove, hlast, List.set, List.eraseIdx]
        rw [List.dropLast_cons_of_ne_nil hne]
        have hsplit : (b :: t2 : List α) = (b :: t2).dropLast ++ [(b :: t2).getLast hne] :=
          (List.dropLast_append_getLast hne).symm
        conv_rhs => rw [hsplit]
        exact (List.perm_append_singleton _ _).symm
      | succ j =>
        have hj : j < (b :: t2).length := by simpa using h
        have hset : ((b :: t2).set j ((b :: t2).getLast hne)) ≠ [] := by
          intro hc
          have := congrArg List.length hc
          simp at this
        simp only [swap_remove, hlast, List.set, List.eraseIdx]
        rw [List.dropLast_cons_of_ne_nil hset]
        refine List.Perm.cons a ?_
        have hsw : swap_remove (b :: t2) j
            = ((b :: t2).set j ((b :: t2).getLast hne)).dropLast := by
          simp [swap_remove, List.getLast?_eq_getLast _ hne]
        rw [← hsw]
        exact ih j hj

/-- `swap_remove` at an in-bounds index shrinks the length by one. -/
theorem length_swap_remove {α : Type} (l : List α) (i : Nat) (h : i < l.length) :
    (swap_remove l i).length + 1 = l.length := by
  have hp := (swap_remove_perm l i h).length_eq
  rw [List.length_eraseIdx] at hp
  simp only [h, if_pos] at hp
  omega

/-- A successful `findIdx?` yields an in-bounds index. -/
theorem findIdx?_some_lt {α : Type} (p : α → Bool) :
    ∀ (l : List α) (i : Nat), l.findIdx? p = some i → i < l.length := by
  intro l
  induction l with
  | nil => intro i h; simp [List.findIdx?_nil] at h
  | cons a t ih =>
    intro i h
    rw [List.findIdx?_cons] at h
    by_cases hp : p a = true
    · rw [if_pos hp] at h
      cases h
      simp
    · rw [if_neg hp, List.findIdx?_succ] at h
      cases hf : t.findIdx? p with
      | none => rw [hf] at h; simp at h
      | some j =>
        rw [hf] at h
        have hij : i = j + 1 := by
          cases h
          rfl
        subst hij
        have := ih j hf
        simp only [List.length_cons]
        omega

/-- When no two entries share a name, `find?` on the name of a member
returns exactly that member. -/
theorem find?_name_of_nodup {σ : Type} (cmd : String) :
    ∀ (l : List (CommandItem σ)),
      (l.map (fun c => c.command)).Nodup →
      ∀ c ∈ l, c.command = cmd →
        l.find? (fun x => x.command == cmd) = some c := by
  intro l
  induction l with
  | nil => simp
  | cons a t ih =>
    intro hnd c hc hname
    simp only [List.map_cons, List.nodup_cons] at hnd
    obtain ⟨ha, hnd2⟩ := hnd
    rcases List.mem_cons.mp hc with rfl | hct
    · exact List.find?_cons_of_pos t (by simp [hname])
    · have hna : a.command ≠ cmd := by
        intro he
        have hmem : c.command ∈ t.map (fun c => c.command) :=
          List.mem_map_of_mem _ hct
        rw [hname, ← he] at hmem
        exact ha hmem
      rw [List.find?_cons_of_neg t (by simp [hna])]
      exact ih hnd2 c hct hname

/-- `process_command` never changes the registry: every branch of the
source returns without assigning to `self`. -/
theorem process_command_fst {σ : Type} {N : Nat} (w : WriterModel σ)
    (p : CommandProcessor σ N) (cmd : String) (wo : Option σ) :
    (process_command w p cmd wo).1 = p := by
  unfold process_command
  split
  · cases wo <;> rfl
  · split <;> rfl

/-- Running writes over an appended sequence: run the first part; continue
with the second only if everything succeeded so far. -/
theorem runWrites_append {σ : Type} (w : WriterModel σ) :
    ∀ (ts1 ts2 : List String) (s : σ),
      runWrites w s (ts1 ++ ts2)
        = (if (runWrites w s ts1).2 then runWrites w (runWrites w s ts1).1 ts2
           else runWrites w s ts1) := by
  intro ts1
  induction ts1 with
  | nil => intro ts2 s; simp [runWrites]
  | cons t ts ih =>
    intro ts2 s
    simp only [List.cons_append, runWrites]
    cases hw : w.writeStr s t with
    | mk s1 ok =>
      cases ok with
      | true => simpa using ih ts2 s1
      | false => simp

/-- If every write on the sequence succeeded, the final state is the plain
fold of the writes. -/
theorem runWrites_ok_fst {σ : Type} (w : WriterModel σ) :
    ∀ (ts : List String) (s : σ), (runWrites w s ts).2 = true →
      (runWrites w s ts).1 = writeAll w s ts := by
  intro ts
  induction ts with
  | nil => intro s _; simp [runWrites, writeAll]
  | cons t ts ih =>
    intro s h
    simp only [runWrites] at h ⊢
    cases hw : w.writeStr s t with
    | mk s1 ok =>
      cases ok with
      | true =>
        rw [hw] at h
        simp only [writeAll, List.foldl_cons, hw]
        exact ih s1 h
      | false => rw [hw] at h; simp [runWrites] at h

/-- On a writer all of whose writes succeed, `runWrites` succeeds and
computes the plain fold of the writes. -/
theorem runWrites_all_ok {σ : Type} (w : WriterModel σ)
    (hw : ∀ (s : σ) (t : String), (w.writeStr s t).2 = true) :
    ∀ (ts : List String) (s : σ), runWrites w s ts = (writeAll w s ts, true) := by
  intro ts
  induction ts with
  | nil => intro s; simp [runWrites, writeAll]
  | cons t ts ih =>
    intro s
    simp only [runWrites, writeAll, List.foldl_cons]
    cases hws : w.writeStr s t with
    | mk s1 ok =>
      cases ok with
      | true => simpa [writeAll] using ih s1
      | false =>
        have := hw s t
        rw [hws] at this
        simp at this

/-- `help_printer` is exactly: run the sequence of help-line writes,
returning `Ok(Success)` if every write succeeded and `Err(WriteError)` at
the first failed write. -/
theorem help_printer_eq {σ : Type} (w : WriterModel σ) :
    ∀ (cmds : List (CommandItem σ)) (s : σ),
      help_printer w cmds s
        = ((runWrites w s (helpWriteSeq cmds)).1,
           if (runWrites w s (helpWriteSeq cmds)).2 then Except.ok ReturnCode.Success
           else Except.error CommandProcessorError.WriteError) := by
  intro cmds
  induction cmds with
  | nil => intro s; simp [help_printer, helpWriteSeq, runWrites]
  | cons c rest ih =>
    intro s
    cases hh : c.help with
    | none => simp only [help_printer, helpWriteSeq, hh]; exact ih s
    | some h =>
      cases h1 : w.writeStr s h with
      | mk s1 ok1 =>
        cases ok1 with
        | true =>
          cases h2 : w.writeStr s1 "\n" with
          | mk s2 ok2 =>
            cases ok2 with
            | true =>
              simp only [help_printer, helpWriteSeq, hh, runWrites, h1, h2]
              exact ih s2
            | false =>
              simp [help_printer, helpWriteSeq, hh, runWrites, h1, h2]
        | false =>
          simp [help_printer, helpWriteSeq, hh, runWrites, h1]

/-- Dispatching `"help"` with a writer runs `help_printer` on the entries. -/
theorem process_command_help_some {σ : Type} {N : Nat} (w : WriterModel σ)
    (p : CommandProcessor σ N) (s : σ) :
    process_command w p "help" (some s)
      = (p, some (help_printer w p.commands s).1, (help_printer w p.commands s).2) := by
  simp [process_command]

/-- Dispatching `"help"` without a writer fails with `NoWriter`. -/
theorem process_command_help_none {σ : Type} {N : Nat} (w : WriterModel σ)
    (p : CommandProcessor σ N) :
    process_command w p "help" none
      = (p, none, .error .NoWriter) := by
  simp [process_command]

/-- Dispatching a non-`"help"` name that `find?` locates invokes exactly
that entry's callback on the given optional writer and returns its result. -/
theorem process_command_found {σ : Type} {N : Nat} (w : WriterModel σ)
    (p : CommandProcessor σ N) (cmd : String) (wo : Option σ)
    (hne : cmd ≠ "help") (c : CommandItem σ)
    (hfind : p.commands.find? (fun x => x.command == cmd) = some c) :
    process_command w p cmd wo = (p, c.callback wo) := by
  simp [process_command, beq_eq_false_iff_ne.mpr hne, hfind]

/-- Dispatching a non-`"help"` name that no entry carries fails with
`CommandNotFound`. -/
theorem process_command_not_found {σ : Type} {N : Nat} (w : WriterModel σ)
    (p : CommandProcessor σ N) (cmd : String) (wo : Option σ)
    (hne : cmd ≠ "help")
    (hfind : p.commands.find? (fun x => x.command == cmd) = none) :
    process_command w p cmd wo = (p, wo, .error .CommandNotFound) := by
  simp [process_command, beq_eq_false_iff_ne.mpr hne, hfind]

/-- Every operation preserves the registry invariant. -/
theorem regInv_applyOp {σ : Type} {N : Nat} (p : CommandProcessor σ N)
    (op : Op σ) (hp : RegInv p) : RegInv (applyOp p op) := by
  obtain ⟨-, hnd⟩ := hp
  cases op with
  | add c cb h =>
    refine ⟨(applyOp p (.add c cb h)).capacity_inv, ?_⟩
    simp only [applyOp, add_command]
    by_cases hdup : p.commands.any (fun cmd => cmd.command == c) = true
    · rw [if_pos hdup]
      exact hnd
    · rw [if_neg hdup]
      by_cases hlen : p.commands.length < N
      · rw [dif_pos hlen]
        simp only [List.map_append, List.map_cons, List.map_nil]
        rw [List.nodup_append]
        refine ⟨hnd, List.nodup_singleton c, ?_⟩
        intro a ha hc
        simp only [List.mem_singleton] at hc
        subst hc
        obtain ⟨x, hx, hxc⟩ := List.mem_map.mp ha
        have := List.any_eq_false.mp (Bool.not_eq_true _ ▸ hdup) x hx
        simp only [beq_iff_eq] at this
        exact this hxc
      · rw [dif_neg hlen]
        exact hnd
  | remove c =>
    refine ⟨(applyOp p (.remove c)).capacity_inv, ?_⟩
    simp only [applyOp, remove_command]
    cases hidx : p.commands.findIdx? (fun cmd => cmd.command == c) with
    | none => exact hnd
    | some i =>
      have hlt : i < p.commands.length := findIdx?_some_lt _ _ _ hidx
      have hperm := (swap_remove_perm p.commands i hlt).map (fun x => x.command)
      have hsub := (List.eraseIdx_sublist p.commands i).map (fun x => x.command)
      exact hperm.nodup_iff.mpr (hsub.nodup hnd)
  | dispatch w c wr =>
    refine ⟨(applyOp p (.dispatch w c wr)).capacity_inv, ?_⟩
    simp only [applyOp, process_command_fst]
    exact hnd

/-- Every sequence of operations preserves the registry invariant. -/
theorem regInv_runOps {σ : Type} {N : Nat} :
    ∀ (ops : List (Op σ)) (p : CommandProcessor σ N),
      RegInv p → RegInv (runOps p ops) := by
  intro ops
  induction ops with
  | nil => intro p hp; exact hp
  | cons op rest ih =>
    intro p hp
    exact ih (applyOp p op) (regInv_applyOp p op hp)

/-! ## Claim theorems -/

/-- C1: every registry reachable from the empty registry by any sequence of
add, remove and dispatch operations holds at most `NUM_COMMANDS` entries,
and no two of its entries share the same name. -/
theorem spec_registry_capacity_and_unique_names {σ : Type} {N : Nat}
    (ops : List (Op σ)) :
    (runOps (CommandProcessor.new σ N) ops).commands.length ≤ N
    ∧ ((runOps (CommandProcessor.new σ N) ops).commands.map
        (fun c => c.command)).Nodup :=
  regInv_runOps ops (CommandProcessor.new σ N)
    ⟨by simp [CommandProcessor.new], by simp [CommandProcessor.new]⟩

/-- C2: `add_command` fails with `CommandAlreadyExists` and leaves the
registry unchanged when some entry already carries the name; otherwise it
fails with `CommandListFull` and leaves the registry unchanged when the
registry already holds `NUM_COMMANDS` entries; otherwise it succeeds and
appends the new entry at the end of the collection. -/
theorem spec_add_command {σ : Type} {N : Nat} (p : CommandProcessor σ N)
    (cmd : String) (cb : CommandCallback σ) (h : Option String) :
    ((∃ c ∈ p.commands, c.command = cmd) →
        add_command p cmd cb h = (p, .error .CommandAlreadyExists))
    ∧ ((∀ c ∈ p.commands, c.command ≠ cmd) → p.commands.length = N →
        add_command p cmd cb h = (p, .error .CommandListFull))
    ∧ ((∀ c ∈ p.commands, c.command ≠ cmd) → p.commands.length < N →
        (add_command p cmd cb h).1.commands = p.commands ++ [⟨cmd, cb, h⟩]
        ∧ (add_command p cmd cb h).2 = .ok ()) := by
  refine ⟨?_, ?_, ?_⟩
  · intro hex
    have hany : p.commands.any (fun c => c.command == cmd) = true := by
      rw [List.any_eq_true]
      obtain ⟨c, hc, he⟩ := hex
      exact ⟨c, hc, beq_iff_eq.mpr he⟩
    simp [add_command, hany]
  · intro hall hlen
    have hany : p.commands.any (fun c => c.command == cmd) = false := by
      rw [List.any_eq_false]
      intro x hx
      simp only [beq_iff_eq]
      exact hall x hx
    have hnlt : ¬ p.commands.length < N := by omega
    simp [add_command, hany, hnlt]
  · intro hall hlt
    have hany : p.commands.any (fun c => c.command == cmd) = false := by
      rw [List.any_eq_false]
      intro x hx
      simp only [beq_iff_eq]
      exact hall x hx
    simp [add_command, hany, hlt]

/-- C3: when an entry with the given name is present, `remove_command`
succeeds and removes the first such entry by swap-with-last-and-pop (the
removed slot is overwritten with the last entry and the collection shrinks
by one); when no entry matches, it fails with `CommandNotFound` and leaves
the registry unchanged. -/
theorem spec_remove_command {σ : Type} {N : Nat} (p : CommandProcessor σ N)
    (cmd : String) :
    ((∃ c ∈ p.commands, c.command = cmd) →
        (p.commands.findIdx? (fun c => c.command == cmd)).isSome)
    ∧ (∀ i, p.commands.findIdx? (fun c => c.command == cmd) = some i →
        (remove_command p cmd).2 = .ok ()
        ∧ (remove_command p cmd).1.commands = swap_remove p.commands i
        ∧ (∀ hne : p.commands ≠ [],
            (remove_command p cmd).1.commands
              = (p.commands.set i (p.commands.getLast hne)).dropLast)
        ∧ (remove_command p cmd).1.commands.length + 1 = p.commands.length)
    ∧ ((∀ c ∈ p.commands, c.command ≠ cmd) →
        (remove_command p cmd).1 = p
        ∧ (remove_command p cmd).2 = .error .CommandNotFound) := by
  refine ⟨?_, ?_, ?_⟩
  · intro hex
    cases hfi : p.commands.findIdx? (fun c => c.command == cmd) with
    | none =>
      rw [List.findIdx?_eq_none_iff] at hfi
      obtain ⟨c, hc, he⟩ := hex
      have := hfi c hc
      simp [beq_iff_eq] at this
      exact absurd he this
    | some i => rfl
  · intro i hidx
    have hlt : i < p.commands.length := findIdx?_some_lt _ _ _ hidx
    have hlen := length_swap_remove p.commands i hlt
    refine ⟨?_, ?_, ?_, ?_⟩
    · simp only [remove_command, hidx]
    · simp only [remove_command, hidx]
    · intro hne
      simp only [remove_command, hidx]
      simp [swap_remove, List.getLast?_eq_getLast _ hne]
    · simp only [remove_command, hidx]
      exact hlen
  · intro hall
    have hfi : p.commands.findIdx? (fun c => c.command == cmd) = none := by
      rw [List.findIdx?_eq_none_iff]
      intro x hx
      exact beq_eq_false_iff_ne.mpr (hall x hx)
    refine ⟨?_, ?_⟩ <;> simp only [remove_command, hfi]

/-- C4: dispatching a non-`"help"` name that a unique entry carries invokes
exactly that entry's callback on the optional writer, passed through
unchanged, and returns its result verbatim; dispatching a non-`"help"` name
carried by no entry fails with `CommandNotFound`. -/
theorem spec_dispatch_callback {σ : Type} {N : Nat} (w : WriterModel σ)
    (p : CommandProcessor σ N) (cmd : String) (wo : Option σ)
    (hne : cmd ≠ "help") :
    ((p.commands.map (fun c => c.command)).Nodup →
        ∀ c ∈ p.commands, c.command = cmd →
          process_command w p cmd wo = (p, c.callback wo))
    ∧ ((∀ c ∈ p.commands, c.command ≠ cmd) →
        process_command w p cmd wo = (p, wo, .error .CommandNotFound)) := by
  constructor
  · intro hnd c hc hcmd
    exact process_command_found w p cmd wo hne c
      (find?_name_of_nodup cmd p.commands hnd c hc hcmd)
  · intro hall
    apply process_command_not_found w p cmd wo hne
    rw [List.find?_eq_none]
    intro x hx
    simp only [beq_iff_eq]
    exact hall x hx

/-- C5: on a writer all of whose writes succeed, dispatching `"help"` with a
writer writes, for each entry with a help string and in storage order, that
help string followed by exactly one newline (entries without help text
contribute nothing), and returns `Ok(Success)`. -/
theorem spec_help_listing_success {σ : Type} {N : Nat} (w : WriterModel σ)
    (p : CommandProcessor σ N) (s : σ)
    (hw : ∀ (s1 : σ) (t : String), (w.writeStr s1 t).2 = true) :
    process_command w p "help" (some s)
      = (p, some (writeAll w s (helpWriteSeq p.commands)), .ok .Success) := by
  rw [process_command_help_some, help_printer_eq, runWrites_all_ok w hw]
  simp

/-- C6 (amended): `"help"` is intercepted before lookup — dispatching
`"help"` always takes the help path (`NoWriter` without a writer, the help
listing with one) and never consults or invokes any stored entry; however
`add_command` does not reject the name `"help"`, so an entry with that name
can exist in the registry (see the counterexample to the original claim). -/
theorem spec_help_interception {σ : Type} {N : Nat} (w : WriterModel σ)
    (p : CommandProcessor σ N) :
    (∀ s : σ, process_command w p "help" (some s)
        = (p, some (help_printer w p.commands s).1, (help_printer w p.commands s).2))
    ∧ process_command w p "help" none = (p, none, .error .NoWriter) :=
  ⟨fun s => process_command_help_some w p s, process_command_help_none w p⟩

/-- C6 (counterexample to the original claim): the registry reached from the
empty registry by the single operation `add_command "help"` stores an entry
named `"help"`. -/
theorem spec_help_name_reachable_cex :
    ((runOps (CommandProcessor.new String 8)
        [Op.add "help" demoCallback none]).commands.map (fun c => c.command))
      = ["help"] := rfl

/-- C7: if a write to the writer fails during the help listing (`done` being
the successfully written prefix of the help lines and `t` the first failing
write), the listing aborts immediately and dispatch fails with `WriteError`;
the writer retains everything written before the failure and nothing of the
sequence after the failing write is written. -/
theorem spec_help_write_failure {σ : Type} {N : Nat} (w : WriterModel σ)
    (p : CommandProcessor σ N) (s : σ)
    (done : List String) (t : String) (rest : List String)
    (hseq : helpWriteSeq p.commands = done ++ t :: rest)
    (hdone : (runWrites w s done).2 = true)
    (hfail : (w.writeStr (writeAll w s done) t).2 = false) :
    process_command w p "help" (some s)
      = (p, some (w.writeStr (writeAll w s done) t).1, .error .WriteError) := by
  have hfst := runWrites_ok_fst w done s hdone
  cases hw2 : w.writeStr (writeAll w s done) t with
  | mk s2 ok2 =>
    rw [hw2] at hfail
    simp only at hfail
    subst hfail
    rw [process_command_help_some, help_printer_eq, hseq, runWrites_append,
      hdone]
    simp only [if_true]
    rw [hfst]
    simp [runWrites, hw2]

/-- C8: dispatching `"help"` without a writer fails with `NoWriter`,
whatever the registry contains. -/
theorem spec_help_requires_writer {σ : Type} {N : Nat} (w : WriterModel σ)
    (p : CommandProcessor σ N) :
    process_command w p "help" none = (p, none, .error .NoWriter) :=
  process_command_help_none w p

/-- C9: dispatch never changes the registry — whatever the name, the
optional writer and the outcome, the entry collection (entries, order and
count) after `process_command` is the one before. -/
theorem spec_dispatch_frame {σ : Type} {N : Nat} (w : WriterModel σ)
    (p : CommandProcessor σ N) (cmd : String) (wo : Option σ) :
    (process_command w p cmd wo).1 = p :=
  process_command_fst w p cmd wo

/-- C10: on a registry with no entry named `"help"` and spare capacity,
`add_command "help"` succeeds and appends an entry named `"help"`: 
registration does not reject the reserved name. -/
theorem spec_add_reserved_name_accepted {σ : Type} {N : Nat}
    (p : CommandProcessor σ N) (cb : CommandCallback σ) (h : Option String)
    (hno : ∀ c ∈ p.commands, c.command ≠ "help")
    (hlt : p.commands.length < N) :
    (add_command p "help" cb h).2 = .ok ()
    ∧ (add_command p "help" cb h).1.commands = p.commands ++ [⟨"help", cb, h⟩] := by
  have hany : p.commands.any (fun c => c.command == "help") = false := by
    rw [List.any_eq_false]
    intro x hx
    simp only [beq_iff_eq]
    exact hno x hx
  simp [add_command, hany, hlt]

/-! ## Witnesses -/

/-- Witness for C2 at concrete registries: duplicate name, full registry,
and successful append. -/
theorem spec_add_command_witness :
    add_command procTwo "a" demoCallback none = (procTwo, .error .CommandAlreadyExists)
    ∧ add_command procFull "b" demoCallback none = (procFull, .error .CommandListFull)
    ∧ (add_command procTwo "c" demoCallback none).1.commands
        = procTwo.commands ++ [⟨"c", demoCallback, none⟩]
    ∧ (add_command procTwo "c" demoCallback none).2 = .ok () := by
  refine ⟨?_, ?_, ?_, ?_⟩
  · exact (spec_add_command procTwo "a" demoCallback none).1
      ⟨⟨"a", demoCallback, some "aa"⟩, by simp [procTwo], rfl⟩
  · exact (spec_add_command procFull "b" demoCallback none).2.1
      (by intro c hc; simp [procFull] at hc; subst hc; decide)
      (by simp [procFull])
  · exact ((spec_add_command procTwo "c" demoCallback none).2.2
      (by intro c hc; simp [procTwo] at hc; rcases hc with rfl | rfl <;> decide)
      (by simp [procTwo])).1
  · exact ((spec_add_command procTwo "c" demoCallback none).2.2
      (by intro c hc; simp [procTwo] at hc; rcases hc with rfl | rfl <;> decide)
      (by simp [procTwo])).2

/-- Witness for C3 at a concrete registry: removing a present name and an
absent name. -/
theorem spec_remove_command_witness :
    (procTwo.commands.findIdx? (fun c => c.command == "a")).isSome = true
    ∧ (remove_command procTwo "a").2 = .ok ()
    ∧ (remove_command procTwo "a").1.commands = swap_remove procTwo.commands 0
    ∧ (remove_command procTwo "a").1.commands.length + 1 = procTwo.commands.length
    ∧ (remove_command procTwo "zz").1 = procTwo
    ∧ (remove_command procTwo "zz").2 = .error .CommandNotFound := by
  have h2 := (spec_remove_command procTwo "a").2.1 0 (by decide)
  have h3 := (spec_remove_command procTwo "zz").2.2
    (by intro c hc; simp [procTwo] at hc; rcases hc with rfl | rfl <;> decide)
  exact ⟨(spec_remove_command procTwo "a").1
      ⟨⟨"a", demoCallback, some "aa"⟩, by simp [procTwo], rfl⟩,
    h2.1, h2.2.1, h2.2.2.2, h3.1, h3.2⟩

/-- Witness for C4 at a concrete registry: dispatching a registered
non-help name returns the callback's result on the passed-through writer,
and dispatching an absent name fails with `CommandNotFound`. -/
theorem spec_dispatch_callback_witness :
    process_command appendWriter procTwo "a" (some "") = (procTwo, demoCallback (some ""))
    ∧ process_command appendWriter procTwo "zz" none
        = (procTwo, none, .error .CommandNotFound) := by
  constructor
  · exact (spec_dispatch_callback appendWriter procTwo "a" (some "") (by decide)).1
      (by decide) ⟨"a", demoCallback, some "aa"⟩ (by simp [procTwo]) rfl
  · exact (spec_dispatch_callback appendWriter procTwo "zz" none (by decide)).2
      (by intro c hc; simp [procTwo] at hc; rcases hc with rfl | rfl <;> decide)

/-- Witness for C5 at a concrete registry and an always-succeeding writer. -/
theorem spec_help_listing_success_witness :
    process_command appendWriter procTwo "help" (some "")
      = (procTwo, some (writeAll appendWriter "" (helpWriteSeq procTwo.commands)),
         .ok .Success) :=
  spec_help_listing_success appendWriter procTwo "" (fun _ _ => rfl)

/-- Witness for C7 at a concrete registry and a 3-byte bounded writer: the
first help line `"aa\n"` fits, the second entry's help string `"bb"` does
not, so the listing aborts with `WriteError` keeping `"aa\n"`. -/
theorem spec_help_write_failure_witness :
    process_command (boundedWriter 3) procTwo "help" (some "")
      = (procTwo,
         some ((boundedWriter 3).writeStr
            (writeAll (boundedWriter 3) "" ["aa", "\n"]) "bb").1,
         .error .WriteError) :=
  spec_help_write_failure (boundedWriter 3) procTwo "" ["aa", "\n"] "bb" ["\n"]
    rfl (by decide) (by decide)

/-- Witness for C10: adding `"help"` to the empty registry succeeds and
stores the entry. -/
theorem spec_add_reserved_name_accepted_witness :
    (add_command (CommandProcessor.new String 8) "help" demoCallback none).2 = .ok ()
    ∧ (add_command (CommandProcessor.new String 8) "help" demoCallback none).1.commands
        = (CommandProcessor.new String 8).commands ++ [⟨"help", demoCallback, none⟩] :=
  spec_add_reserved_name_accepted (CommandProcessor.new String 8) demoCallback none
    (by intro c hc; simp [CommandProcessor.new] at hc)
    (by simp [CommandProcessor.new])
